import Mathlib

/-!
Shallow embedding of the composite (product) space `gym.spaces.Tuple`
from `src/gym/spaces/tuple.py`.

Child spaces are modelled abstractly through the `Space` capability
contract: a child is a record of deterministic state-passing functions
over a child-state type `S`, a sample-value type `V` and a JSON
representation type `J`.  The NumPy pseudo-random generator owned by the
composite is modelled abstractly through a record of deterministic
operations over an RNG-state type `R`.
-/

/-- A child space, as seen through the Space capability contract:
`seedFn` models `space.seed` restricted to the argument shapes the
composite ever passes to a child (an integer or None), returning the
list of applied seed values and the updated child state; `sampleFn`
models `space.sample`; `containsFn` models `space.contains`;
`toJson` and `fromJson` model `space.to_jsonable` and
`space.from_jsonable` on column batches. -/
structure Child (V S J : Type) where
  seedFn : Option Int → S → List Int × S
  sampleFn : S → V × S
  containsFn : V → Bool
  toJson : List V → J
  fromJson : J → List V

/-- The composite space: an ordered, immutable sequence of child spaces
(`self.spaces` in `Tuple.__init__`). -/
structure TupleSpace (V S J : Type) where
  spaces : List (Child V S J)

/-- Modelled from the spec: the generic space-seeding mechanism
(`Space.seed` of the base class, whose source is not part of this
fragment) together with the NumPy generator operations the composite
uses.  `reseed` seeds the PRNG of the space with an integer and yields
the one seed value the generic mechanism records; `choiceNoRep` models
`np_random.choice(bound, size=n, replace=False)`, with `none` standing
for the ValueError raised when the draw without replacement is
impossible; `choiceRep` models `np_random.choice(bound, size=n)`
(with replacement), which always succeeds. -/
structure RandomOps (R : Type) where
  reseed : Int → R × Int
  choiceNoRep : Nat → Nat → R → Option (List Int × R)
  choiceRep : Nat → Nat → R → List Int × R

/-- Mutable state of one composite space instance: its own PRNG state
and the state of each child, index-aligned with `spaces`. -/
structure TState (R S : Type) where
  rng : R
  childStates : List S

/-- The argument shapes accepted by `Tuple.seed`: `None`, an `int`, a
`list`, or a value of any other type. -/
inductive SeedSpec
  | noSeed : SeedSpec
  | intSeed (n : Int) : SeedSpec
  | listSeed (l : List Int) : SeedSpec
  | badType : SeedSpec

/-- The exceptions `Tuple.seed` can raise: `IndexError` from `seed[i]`
when the seed list is shorter than the child count, and the explicit
`TypeError` for an unsupported spec type. -/
inductive SeedErr
  | indexError : SeedErr
  | typeError : SeedErr
deriving DecidableEq, Repr

/-- `np.iinfo(int).max` on a 64-bit platform. -/
def npIntMax : Nat := 2 ^ 63 - 1

/-- The loop of the list branch of `Tuple.seed`:
`for i, space in enumerate(self.spaces): seeds += space.seed(seed[i])`.
Walking the seed list in lockstep with the children is the same as
indexing it, one entry per child; running out of entries while children
remain is the `IndexError` of `seed[i]`.  States mutated before the
error are kept, since the exception does not roll them back. -/
def seedChildrenList {V S J : Type} :
    List (Child V S J) → List Int → List S → Except SeedErr (List Int) × List S
  | [], _, sts => (Except.ok [], sts)
  | _ :: _, [], sts => (Except.error SeedErr.indexError, sts)
  | sp :: sps, sd :: sds, st :: sts =>
      let r := sp.seedFn (some sd) st
      let rest := seedChildrenList sps sds sts
      match rest.1 with
      | Except.ok l => (Except.ok (r.1 ++ l), r.2 :: rest.2)
      | Except.error e => (Except.error e, r.2 :: rest.2)
  | _ :: _, _ :: _, [] => (Except.error SeedErr.indexError, [])

/-- The loop of the int branch of `Tuple.seed`:
`for subspace, subseed in zip(self.spaces, subseeds):
seeds.append(subspace.seed(int(subseed))[0])`.  `zip` truncates to the
shorter operand; `headD 0` reads the first applied seed value of the
child (the Space contract guarantees the returned list is nonempty). -/
def seedChildrenFirst {V S J : Type} :
    List (Child V S J) → List Int → List S → List Int × List S
  | [], _, sts => ([], sts)
  | _ :: _, [], sts => ([], sts)
  | sp :: sps, sd :: sds, st :: sts =>
      let r := sp.seedFn (some sd) st
      let rest := seedChildrenFirst sps sds sts
      (r.1.headD 0 :: rest.1, r.2 :: rest.2)
  | _ :: _, _ :: _, [] => ([], [])

/-- The loop of the None branch of `Tuple.seed`:
`for space in self.spaces: seeds += space.seed(seed)` with `seed = None`. -/
def seedChildrenNone {V S J : Type} :
    List (Child V S J) → List S → List Int × List S
  | [], sts => ([], sts)
  | sp :: sps, st :: sts =>
      let r := sp.seedFn none st
      let rest := seedChildrenNone sps sts
      (r.1 ++ rest.1, r.2 :: rest.2)
  | _ :: _, [] => ([], [])

/-- `Tuple.seed`.  The list branch seeds each child with the
corresponding entry; the int branch seeds the composite PRNG through
the generic mechanism, draws one sub-seed per child without replacement
from `range(np.iinfo(int).max)` falling back to drawing with
replacement when the ValueError is raised, and seeds each child with
its sub-seed keeping the first reported value; the None branch
propagates None to every child; any other spec type is a TypeError. -/
def seedT {V S J R : Type} (ops : RandomOps R) (t : TupleSpace V S J)
    (spec : SeedSpec) (st : TState R S) :
    Except SeedErr (List Int) × TState R S :=
  match spec with
  | SeedSpec.listSeed l =>
      let r := seedChildrenList t.spaces l st.childStates
      (r.1, ⟨st.rng, r.2⟩)
  | SeedSpec.intSeed s =>
      let r1own := ops.reseed s
      let subs :=
        match ops.choiceNoRep npIntMax t.spaces.length r1own.1 with
        | some res => res
        | none => ops.choiceRep npIntMax t.spaces.length r1own.1
      let r := seedChildrenFirst t.spaces subs.1 st.childStates
      (Except.ok (r1own.2 :: r.1), ⟨subs.2, r.2⟩)
  | SeedSpec.noSeed =>
      let r := seedChildrenNone t.spaces st.childStates
      (Except.ok r.1, ⟨st.rng, r.2⟩)
  | SeedSpec.badType => (Except.error SeedErr.typeError, st)

/-- `Tuple.sample`: `tuple(space.sample() for space in self.spaces)`,
each child drawing from its own state. -/
def sampleChildren {V S J : Type} :
    List (Child V S J) → List S → List V × List S
  | [], sts => ([], sts)
  | sp :: sps, st :: sts =>
      let r := sp.sampleFn st
      let rest := sampleChildren sps sts
      (r.1 :: rest.1, r.2 :: rest.2)
  | _ :: _, [] => ([], [])

/-- `Tuple.sample` at the composite level. -/
def sampleT {V S J R : Type} (t : TupleSpace V S J) (st : TState R S) :
    List V × TState R S :=
  let r := sampleChildren t.spaces st.childStates
  (r.1, ⟨st.rng, r.2⟩)

/-- A Python value as `Tuple.contains` sees it: a tuple, a list, a
NumPy array (all three carrying an ordered sequence of elements), or a
value of any other type. -/
inductive PyObj (V : Type)
  | tup (xs : List V) : PyObj V
  | pyList (xs : List V) : PyObj V
  | ndarray (xs : List V) : PyObj V
  | other : PyObj V

/-- The normalization step of `Tuple.contains`:
`if isinstance(x, (list, np.ndarray)): x = tuple(x)`. -/
def normalizeObj {V : Type} : PyObj V → PyObj V
  | PyObj.pyList xs => PyObj.tup xs
  | PyObj.ndarray xs => PyObj.tup xs
  | x => x

/-- `Tuple.contains`: after normalization, true iff the value is a
tuple of the same length as `spaces` whose elements pairwise satisfy
the contains of the corresponding child
(`all(space.contains(part) for (space, part) in zip(self.spaces, x))`). -/
def containsT {V S J : Type} (t : TupleSpace V S J) (x : PyObj V) : Bool :=
  match normalizeObj x with
  | PyObj.tup xs =>
      decide (xs.length = t.spaces.length) &&
        (t.spaces.zip xs).all fun p => p.1.containsFn p.2
  | _ => false

/-- `Tuple.to_jsonable`: column-major encoding,
`[space.to_jsonable([sample[i] for sample in sample_n]) for i, space in
enumerate(self.spaces)]`.  `sample[i]` is modelled by `getD i default`;
it agrees with the source whenever every sample has the arity of the
composite, the only shape the source contract allows. -/
def toJsonT {V S J : Type} [Inhabited V] (t : TupleSpace V S J)
    (sample_n : List (List V)) : List J :=
  t.spaces.mapIdx fun i sp => sp.toJson (sample_n.map fun s => s.getD i default)

/-- The length of the shortest column, `0` when there are no columns:
this is the length of `list(zip(*cols))` in Python for a nonempty
`cols`. -/
def minColLen {α : Type} : List (List α) → Nat
  | [] => 0
  | c :: cs => cs.foldl (fun m l => min m l.length) c.length

/-- Python `list(zip(*cols))`: the truncating transpose.  With no
columns `zip()` is empty; otherwise row `k` pairs the `k`-th element of
every column, and rows stop at the shortest column. -/
def zipStar {α : Type} [Inhabited α] (cols : List (List α)) : List (List α) :=
  match cols with
  | [] => []
  | _ :: _ =>
      (List.range (minColLen cols)).map fun k => cols.map fun c => c.getD k default

/-- `Tuple.from_jsonable`: decode one column per child
(`space.from_jsonable(sample_n[i])`), then
`zip(*columns)` back into row-major samples.  `sample_n[i]` is modelled
by `getD i default`; it agrees with the source whenever the input has
one entry per child, the only shape the source contract allows. -/
def fromJsonT {V S J : Type} [Inhabited V] [Inhabited J] (t : TupleSpace V S J)
    (sample_n : List J) : List (List V) :=
  zipStar (t.spaces.mapIdx fun i sp => sp.fromJson (sample_n.getD i default))

/-- The right operand of `Tuple.__eq__`: either another composite space
or a value of any other type (`isinstance(other, Tuple)` fails). -/
inductive PySpaceObj (V S J : Type)
  | tupleSpace (t : TupleSpace V S J) : PySpaceObj V S J
  | nonTuple : PySpaceObj V S J

/-- Python tuple equality `self.spaces == other.spaces`, elementwise
through the equality `ceq` of the child spaces themselves. -/
def listEqBy {α : Type} (ceq : α → α → Bool) : List α → List α → Bool
  | [], [] => true
  | a :: as, b :: bs => ceq a b && listEqBy ceq as bs
  | _, _ => false

/-- `Tuple.__eq__`:
`isinstance(other, Tuple) and self.spaces == other.spaces`. -/
def eqT {V S J : Type} (ceq : Child V S J → Child V S J → Bool)
    (t : TupleSpace V S J) (other : PySpaceObj V S J) : Bool :=
  match other with
  | PySpaceObj.tupleSpace t2 => listEqBy ceq t.spaces t2.spaces
  | PySpaceObj.nonTuple => false

/-! Concrete instantiations used to evaluate the theorems on explicit
inputs: integer child states, integer sample values, lists of integers
as the JSON representation, an integer RNG state. -/

/-- A concrete deterministic stand-in for the NumPy generator
operations: seeding keeps the seed visible, drawing without replacement
always succeeds and returns the requested number of values. -/
def demoOps : RandomOps Int where
  reseed s := (s + 100, s)
  choiceNoRep _ n r := some (((List.range n).map fun i => r + Int.ofNat i), r + 1)
  choiceRep _ n r := (((List.range n).map fun _ => r), r + 2)

/-- A concrete leaf child with offset `c`: seeding with an integer `k`
resets the child state to `k + c` (independently of the prior state)
and reports `[k + c]`; seeding with None reports `[c]` and bumps the
state; sampling returns state plus offset. -/
def demoChild (c : Int) : Child Int Int (List Int) where
  seedFn o s :=
    match o with
    | some k => ([k + c], k + c)
    | none => ([c], s + 1)
  sampleFn s := (s + c, s + 1)
  containsFn v := decide (0 ≤ v)
  toJson l := l
  fromJson j := j

/-- A variant of `demoChild` whose membership test accepts every
value, so that every sample is a member. -/
def demoChildAll (c : Int) : Child Int Int (List Int) :=
  { demoChild c with containsFn := fun _ => true }

/-- A composite with no children. -/
def demoT0 : TupleSpace Int Int (List Int) := ⟨[]⟩

/-- A composite with one child. -/
def demoT1 : TupleSpace Int Int (List Int) := ⟨[demoChild 1]⟩

/-- A composite with two children. -/
def demoT2 : TupleSpace Int Int (List Int) := ⟨[demoChild 1, demoChild 2]⟩

/-- A composite with two all-accepting children. -/
def demoT2All : TupleSpace Int Int (List Int) := ⟨[demoChildAll 1, demoChildAll 2]⟩

/-- A state for the one-child composite. -/
def demoSt1 : TState Int Int := ⟨0, [10]⟩

/-- A state for a two-child composite. -/
def demoSt2 : TState Int Int := ⟨0, [10, 20]⟩

/-- Another state for a two-child composite, differing from
`demoSt2` in both the RNG state and every child state. -/
def demoSt2' : TState Int Int := ⟨7, [31, 42]⟩

/-! Helper lemmas about the child-iteration loops. -/

/-- The values returned by the int-branch loop are exactly the first
reported seed of each child paired with its sub-seed, in child
order. -/
theorem seedChildrenFirst_fst {V S J : Type} :
    ∀ (sps : List (Child V S J)) (sds : List Int) (sts : List S),
      (seedChildrenFirst sps sds sts).1 =
        (sps.zip (sds.zip sts)).map fun p => (p.1.seedFn (some p.2.1) p.2.2).1.headD 0
  | [], _, _ => rfl
  | _ :: _, [], _ => rfl
  | sp :: sps, sd :: sds, st :: sts => by
      simp only [seedChildrenFirst, List.zip_cons_cons, List.map_cons]
      exact congrArg _ (seedChildrenFirst_fst sps sds sts)
  | _ :: _, _ :: _, [] => by simp [seedChildrenFirst]

/-- The values returned by the None-branch loop are the concatenation
of the per-child reported seed lists, in child order. -/
theorem seedChildrenNone_fst {V S J : Type} :
    ∀ (sps : List (Child V S J)) (sts : List S),
      (seedChildrenNone sps sts).1 =
        ((sps.zip sts).map fun p => (p.1.seedFn none p.2).1).flatten
  | [], _ => by simp [seedChildrenNone]
  | _ :: _, [] => by simp [seedChildrenNone]
  | sp :: sps, st :: sts => by
      simp only [seedChildrenNone, List.zip_cons_cons, List.map_cons, List.flatten_cons]
      exact congrArg _ (seedChildrenNone_fst sps sts)

/-- The values returned by the sampling loop are the per-child samples,
each drawn from the state of that child, in child order. -/
theorem sampleChildren_fst {V S J : Type} :
    ∀ (sps : List (Child V S J)) (sts : List S),
      (sampleChildren sps sts).1 =
        (sps.zip sts).map fun p => (p.1.sampleFn p.2).1
  | [], _ => by simp [sampleChildren]
  | _ :: _, [] => by simp [sampleChildren]
  | sp :: sps, st :: sts => by
      simp only [sampleChildren, List.zip_cons_cons, List.map_cons]
      exact congrArg _ (sampleChildren_fst sps sts)

/-- Pointwise reading of a conjunction of a boolean test over the zip
of two lists. -/
theorem zip_all_iff {α β : Type} (p : α → β → Bool) :
    ∀ (l1 : List α) (l2 : List β),
      ((l1.zip l2).all fun q => p q.1 q.2) = true ↔
        ∀ i (h1 : i < l1.length) (h2 : i < l2.length),
          p (l1.get ⟨i, h1⟩) (l2.get ⟨i, h2⟩) = true
  | [], _ => by simp
  | _ :: _, [] => by simp
  | a :: l1, b :: l2 => by
      simp only [List.zip_cons_cons, List.all_cons, Bool.and_eq_true]
      constructor
      · rintro ⟨hab, hrest⟩ i h1 h2
        cases i with
        | zero => exact hab
        | succ i =>
            exact (zip_all_iff p l1 l2).1 hrest i (Nat.lt_of_succ_lt_succ h1)
              (Nat.lt_of_succ_lt_succ h2)
      · intro h
        refine ⟨h 0 (Nat.succ_pos _) (Nat.succ_pos _), ?_⟩
        exact (zip_all_iff p l1 l2).2 fun i h1 h2 =>
          h (i + 1) (Nat.succ_lt_succ h1) (Nat.succ_lt_succ h2)

/-- Pointwise reading of elementwise boolean list equality. -/
theorem listEqBy_iff {α : Type} (ceq : α → α → Bool) :
    ∀ (l1 l2 : List α),
      listEqBy ceq l1 l2 = true ↔
        l1.length = l2.length ∧
          ∀ i (h1 : i < l1.length) (h2 : i < l2.length),
            ceq (l1.get ⟨i, h1⟩) (l2.get ⟨i, h2⟩) = true
  | [], [] => by simp [listEqBy]
  | [], _ :: _ => by simp [listEqBy]
  | _ :: _, [] => by simp [listEqBy]
  | a :: l1, b :: l2 => by
      simp only [listEqBy, Bool.and_eq_true, List.length_cons]
      constructor
      · rintro ⟨hab, hrest⟩
        obtain ⟨hlen, helt⟩ := (listEqBy_iff ceq l1 l2).1 hrest
        refine ⟨by omega, fun i h1 h2 => ?_⟩
        cases i with
        | zero => exact hab
        | succ i =>
            exact helt i (Nat.lt_of_succ_lt_succ h1) (Nat.lt_of_succ_lt_succ h2)
      · rintro ⟨hlen, helt⟩
        refine ⟨helt 0 (Nat.succ_pos _) (Nat.succ_pos _), ?_⟩
        exact (listEqBy_iff ceq l1 l2).2
          ⟨by omega, fun i h1 h2 =>
            helt (i + 1) (Nat.succ_lt_succ h1) (Nat.succ_lt_succ h2)⟩

/-- C2: `Tuple.contains` is total and, after normalizing lists and
arrays to tuples, accepts exactly the tuples of the arity of the
composite whose elements pairwise satisfy the contains of the
corresponding child; every other value, wrong arity included, yields
false. -/
theorem tuple_contains_spec {V S J : Type} (t : TupleSpace V S J) (x : PyObj V) :
    containsT t x = true ↔
      ∃ xs, normalizeObj x = PyObj.tup xs ∧ xs.length = t.spaces.length ∧
        ∀ i (hs : i < t.spaces.length) (hx : i < xs.length),
          (t.spaces.get ⟨i, hs⟩).containsFn (xs.get ⟨i, hx⟩) = true := by
  unfold containsT
  cases hn : normalizeObj x with
  | tup xs =>
      simp only [hn, Bool.and_eq_true, decide_eq_true_eq, PyObj.tup.injEq]
      constructor
      · rintro ⟨hlen, hall⟩
        refine ⟨xs, rfl, hlen, fun i hs hx => ?_⟩
        exact (zip_all_iff (fun sp v => sp.containsFn v) t.spaces xs).1 hall i hs hx
      · rintro ⟨ys, hy, hlen, helt⟩
        cases hy
        exact ⟨hlen, (zip_all_iff (fun sp v => sp.containsFn v) t.spaces xs).2 helt⟩
  | pyList xs =>
      simp only [hn]
      exact ⟨fun hF => absurd hF (by simp), by rintro ⟨ys, hy, -, -⟩; cases hy⟩
  | ndarray xs =>
      simp only [hn]
      exact ⟨fun hF => absurd hF (by simp), by rintro ⟨ys, hy, -, -⟩; cases hy⟩
  | other =>
      simp only [hn]
      exact ⟨fun hF => absurd hF (by simp), by rintro ⟨ys, hy, -, -⟩; cases hy⟩

/-- C9: `Tuple.__eq__` is true exactly when the other operand is a
composite space too and the two child sequences are elementwise equal,
in the same order, under the equality of child spaces. -/
theorem tuple_eq_spec {V S J : Type} (ceq : Child V S J → Child V S J → Bool)
    (t : TupleSpace V S J) (other : PySpaceObj V S J) :
    eqT ceq t other = true ↔
      ∃ t2, other = PySpaceObj.tupleSpace t2 ∧
        t.spaces.length = t2.spaces.length ∧
        ∀ i (h1 : i < t.spaces.length) (h2 : i < t2.spaces.length),
          ceq (t.spaces.get ⟨i, h1⟩) (t2.spaces.get ⟨i, h2⟩) = true := by
  cases other with
  | tupleSpace t2 =>
      simp only [eqT, PySpaceObj.tupleSpace.injEq]
      rw [listEqBy_iff]
      constructor
      · rintro ⟨hlen, helt⟩
        exact ⟨t2, rfl, hlen, helt⟩
      · rintro ⟨t2h, ht, hlen, helt⟩
        cases ht
        exact ⟨hlen, helt⟩
  | nonTuple =>
      simp only [eqT]
      exact ⟨fun hF => absurd hF (by simp), by rintro ⟨t2, ht, -, -⟩; cases ht⟩

/-- C7: seeding with None propagates None to every child in order and
returns the concatenation of their reported seed lists, whose length is
the sum of the per-child report lengths over all children, and the
composite PRNG state is untouched. -/
theorem tuple_seed_none_spec {V S J R : Type} (ops : RandomOps R) (t : TupleSpace V S J)
    (st : TState R S) (h : st.childStates.length = t.spaces.length) :
    (seedT ops t SeedSpec.noSeed st).1 =
      Except.ok (((t.spaces.zip st.childStates).map fun p => (p.1.seedFn none p.2).1).flatten) ∧
    (((t.spaces.zip st.childStates).map fun p => (p.1.seedFn none p.2).1).flatten).length =
      ((t.spaces.zip st.childStates).map fun p => ((p.1.seedFn none p.2).1).length).sum ∧
    (t.spaces.zip st.childStates).length = t.spaces.length ∧
    (seedT ops t SeedSpec.noSeed st).2.rng = st.rng := by
  refine ⟨?_, ?_, ?_, rfl⟩
  · exact congrArg Except.ok (seedChildrenNone_fst t.spaces st.childStates)
  · rw [List.length_flatten, List.map_map]
    rfl
  · rw [List.length_zip, h, Nat.min_self]

/-- Witness for C7 on a concrete two-child composite. -/
theorem tuple_seed_none_spec_witness :
    (seedT demoOps demoT2 SeedSpec.noSeed demoSt2).1 =
      Except.ok (((demoT2.spaces.zip demoSt2.childStates).map
        fun p => (p.1.seedFn none p.2).1).flatten) ∧
    (seedT demoOps demoT2 SeedSpec.noSeed demoSt2).2.rng = demoSt2.rng :=
  ⟨(tuple_seed_none_spec demoOps demoT2 demoSt2 (by decide)).1,
   (tuple_seed_none_spec demoOps demoT2 demoSt2 (by decide)).2.2.2⟩

/-- Each sample of a child satisfies the contains of that child, read
off along the zip of the children with their states. -/
theorem contains_sample_aux {V S J : Type} :
    ∀ (sps : List (Child V S J)) (sts : List S),
      (∀ sp ∈ sps, ∀ s, sp.containsFn (sp.sampleFn s).1 = true) →
      ((sps.zip ((sps.zip sts).map fun p => (p.1.sampleFn p.2).1)).all
        fun q => q.1.containsFn q.2) = true
  | [], _, _ => rfl
  | _ :: _, [], _ => rfl
  | sp :: sps, st :: sts, hok => by
      simp only [List.zip_cons_cons, List.map_cons, List.all_cons, Bool.and_eq_true]
      refine ⟨hok sp (List.mem_cons_self _ _) st, ?_⟩
      exact contains_sample_aux sps sts fun q hm s => hok q (List.mem_cons_of_mem _ hm) s

/-- C8: `Tuple.sample` assembles the per-child samples in child order,
with the arity of the composite, and the assembled tuple is a member of
the composite whenever every child accepts its own samples. -/
theorem tuple_sample_spec {V S J R : Type} (t : TupleSpace V S J) (st : TState R S)
    (h : st.childStates.length = t.spaces.length)
    (hok : ∀ sp ∈ t.spaces, ∀ s, sp.containsFn (sp.sampleFn s).1 = true) :
    (sampleT t st).1 = ((t.spaces.zip st.childStates).map fun p => (p.1.sampleFn p.2).1) ∧
    (sampleT t st).1.length = t.spaces.length ∧
    containsT t (PyObj.tup (sampleT t st).1) = true := by
  have hs : (sampleT t st).1 =
      ((t.spaces.zip st.childStates).map fun p => (p.1.sampleFn p.2).1) :=
    sampleChildren_fst t.spaces st.childStates
  have hlen : (sampleT t st).1.length = t.spaces.length := by
    rw [hs, List.length_map, List.length_zip, h, Nat.min_self]
  refine ⟨hs, hlen, ?_⟩
  show (decide ((sampleT t st).1.length = t.spaces.length) &&
      ((t.spaces.zip (sampleT t st).1).all fun p => p.1.containsFn p.2)) = true
  rw [Bool.and_eq_true, decide_eq_true_eq]
  exact ⟨hlen, by rw [hs]; exact contains_sample_aux t.spaces st.childStates hok⟩

/-- Witness for C8 on a concrete two-child composite whose children
accept every value. -/
theorem tuple_sample_spec_witness :
    (sampleT demoT2All demoSt2).1.length = demoT2All.spaces.length ∧
    containsT demoT2All (PyObj.tup (sampleT demoT2All demoSt2).1) = true :=
  ⟨(tuple_sample_spec demoT2All demoSt2 (by decide)
      (by intro sp hm s; fin_cases hm <;> rfl)).2.1,
   (tuple_sample_spec demoT2All demoSt2 (by decide)
      (by intro sp hm s; fin_cases hm <;> rfl)).2.2⟩

/-- Taking exactly as many entries as the other operand has does not
change a zip. -/
theorem zip_take_length {α β : Type} :
    ∀ (l : List α) (s : List β), (l.take s.length).zip s = l.zip s
  | _, [] => by simp
  | [], _ :: _ => by simp
  | a :: l, b :: s => by
      simp only [List.length_cons, List.take_succ_cons, List.zip_cons_cons]
      exact congrArg _ (zip_take_length l s)

/-- When the seed list covers every child, the list-branch loop seeds
each child with its entry, returns the concatenated reports, and
replaces every child state. -/
theorem seedChildrenList_ok {V S J : Type} :
    ∀ (sps : List (Child V S J)) (sds : List Int) (sts : List S),
      sps.length ≤ sds.length → sts.length = sps.length →
      seedChildrenList sps sds sts =
        (Except.ok (((sps.zip (sds.zip sts)).map
            fun p => (p.1.seedFn (some p.2.1) p.2.2).1).flatten),
         (sps.zip (sds.zip sts)).map fun p => (p.1.seedFn (some p.2.1) p.2.2).2)
  | [], sds, sts, _, hlen => by
      cases sts with
      | nil => simp [seedChildrenList]
      | cons a b => simp at hlen
  | sp :: sps, [], sts, hle, _ => by simp at hle
  | sp :: sps, sd :: sds, sts, hle, hlen => by
      cases sts with
      | nil => simp at hlen
      | cons st sts =>
          have ih := seedChildrenList_ok sps sds sts (by simpa using hle) (by simpa using hlen)
          simp only [seedChildrenList, ih, List.zip_cons_cons, List.map_cons, List.flatten_cons]

/-- When the seed list is shorter than the child count, the list-branch
loop stops in the IndexError: the children covered by the list have
been re-seeded with their entry, the remaining child states are kept
unchanged. -/
theorem seedChildrenList_short {V S J : Type} :
    ∀ (sps : List (Child V S J)) (sds : List Int) (sts : List S),
      sds.length < sps.length → sts.length = sps.length →
      seedChildrenList sps sds sts =
        (Except.error SeedErr.indexError,
         ((sps.zip (sds.zip sts)).map fun p => (p.1.seedFn (some p.2.1) p.2.2).2)
           ++ sts.drop sds.length)
  | [], _, _, hlt, _ => by simp at hlt
  | sp :: sps, [], sts, _, _ => by simp [seedChildrenList]
  | sp :: sps, sd :: sds, sts, hlt, hlen => by
      cases sts with
      | nil => simp at hlen
      | cons st sts =>
          have ih := seedChildrenList_short sps sds sts (by simpa using hlt) (by simpa using hlen)
          simp only [seedChildrenList, ih, List.zip_cons_cons, List.map_cons, List.length_cons,
            List.drop_succ_cons, List.cons_append]

/-- C10: when the seed list is shorter than the child count, the call
fails with the index error, but only after each child covered by the
list has been re-seeded with its entry; the later children and the
composite PRNG are untouched, and the re-seeded prefix has exactly the
length of the seed list. -/
theorem tuple_seed_list_short_spec {V S J R : Type} (ops : RandomOps R)
    (t : TupleSpace V S J) (st : TState R S) (l : List Int)
    (h : st.childStates.length = t.spaces.length)
    (hshort : l.length < t.spaces.length) :
    (seedT ops t (SeedSpec.listSeed l) st).1 = Except.error SeedErr.indexError ∧
    (seedT ops t (SeedSpec.listSeed l) st).2.childStates =
      ((t.spaces.zip (l.zip st.childStates)).map fun p => (p.1.seedFn (some p.2.1) p.2.2).2)
        ++ st.childStates.drop l.length ∧
    (t.spaces.zip (l.zip st.childStates)).length = l.length ∧
    (seedT ops t (SeedSpec.listSeed l) st).2.rng = st.rng := by
  have hc := seedChildrenList_short t.spaces l st.childStates hshort h
  refine ⟨?_, ?_, ?_, rfl⟩
  · show (seedChildrenList t.spaces l st.childStates).1 = _
    rw [hc]
  · show (seedChildrenList t.spaces l st.childStates).2 = _
    rw [hc]
  · rw [List.length_zip, List.length_zip, h]
    omega

/-- Witness for C10 on a concrete two-child composite seeded with a
one-entry list. -/
theorem tuple_seed_list_short_spec_witness :
    (seedT demoOps demoT2 (SeedSpec.listSeed [5]) demoSt2).1 =
      Except.error SeedErr.indexError ∧
    (seedT demoOps demoT2 (SeedSpec.listSeed [5]) demoSt2).2.childStates =
      ((demoT2.spaces.zip (([5] : List Int).zip demoSt2.childStates)).map
        fun p => (p.1.seedFn (some p.2.1) p.2.2).2) ++ demoSt2.childStates.drop 1 :=
  ⟨(tuple_seed_list_short_spec demoOps demoT2 demoSt2 [5] (by decide) (by decide)).1,
   (tuple_seed_list_short_spec demoOps demoT2 demoSt2 [5] (by decide) (by decide)).2.1⟩

/-- C4 counterexample: seeding a one-child composite with the
two-entry list `[5, 7]` does not raise; the extra entry is silently
ignored and the call returns the report of the single child. -/
theorem tuple_seed_list_longer_no_error :
    (seedT demoOps demoT1 (SeedSpec.listSeed [5, 7]) demoSt1).1 =
      Except.ok [6] := rfl

/-- C4 as amended: a seed list shorter than the child count is a fatal
index error; a spec that is not an integer, a list, or absent is a
fatal type error; but a seed list longer than the child count is
accepted silently, behaving exactly as its truncation to the child
count, with the extra entries ignored. -/
theorem tuple_seed_list_arity_spec {V S J R : Type} (ops : RandomOps R)
    (t : TupleSpace V S J) (st : TState R S) (l : List Int)
    (h : st.childStates.length = t.spaces.length) :
    (l.length < t.spaces.length →
      (seedT ops t (SeedSpec.listSeed l) st).1 = Except.error SeedErr.indexError) ∧
    (t.spaces.length ≤ l.length →
      seedT ops t (SeedSpec.listSeed l) st =
        seedT ops t (SeedSpec.listSeed (l.take t.spaces.length)) st ∧
      (seedT ops t (SeedSpec.listSeed l) st).1 =
        Except.ok (((t.spaces.zip (l.zip st.childStates)).map
          fun p => (p.1.seedFn (some p.2.1) p.2.2).1).flatten)) ∧
    seedT ops t SeedSpec.badType st = (Except.error SeedErr.typeError, st) := by
  refine ⟨fun hshort => ?_, fun hlong => ?_, rfl⟩
  · show (seedChildrenList t.spaces l st.childStates).1 = _
    rw [seedChildrenList_short t.spaces l st.childStates hshort h]
  · have htk : (l.take t.spaces.length).length = t.spaces.length := by
      rw [List.length_take]
      omega
    have hzip : (l.take t.spaces.length).zip st.childStates = l.zip st.childStates := by
      rw [← h, zip_take_length]
    have hok := seedChildrenList_ok t.spaces l st.childStates hlong h
    have hok2 := seedChildrenList_ok t.spaces (l.take t.spaces.length) st.childStates
      (le_of_eq htk.symm) h
    constructor
    · show (_, (⟨st.rng, _⟩ : TState R S)) = (_, (⟨st.rng, _⟩ : TState R S))
      rw [hok, hok2, hzip]
    · show (seedChildrenList t.spaces l st.childStates).1 = _
      rw [hok]

/-- Witness for C4 as amended, on a concrete two-child composite. -/
theorem tuple_seed_list_arity_spec_witness :
    (seedT demoOps demoT2 (SeedSpec.listSeed [5]) demoSt2).1 =
      Except.error SeedErr.indexError ∧
    seedT demoOps demoT2 (SeedSpec.listSeed [5, 7, 9]) demoSt2 =
      seedT demoOps demoT2 (SeedSpec.listSeed [5, 7]) demoSt2 ∧
    seedT demoOps demoT2 SeedSpec.badType demoSt2 =
      (Except.error SeedErr.typeError, demoSt2) :=
  ⟨(tuple_seed_list_arity_spec demoOps demoT2 demoSt2 [5] (by decide)).1 (by decide),
   (tuple_seed_list_arity_spec demoOps demoT2 demoSt2 [5, 7, 9] (by decide)).2.1
     (by decide) |>.1,
   (tuple_seed_list_arity_spec demoOps demoT2 demoSt2 [] (by decide)).2.2⟩

/-- C1: seeding with a single integer first seeds the composite PRNG
through the generic mechanism and records its one seed value, then
draws one sub-seed per child from the domain bounded by
`np.iinfo(int).max` without replacement using the freshly seeded PRNG,
falling back to the same draw with replacement when the draw without
replacement fails, and returns the recorded value followed, in child
order, by the first seed value each child reports for its sub-seed. -/
theorem tuple_seed_int_spec {V S J R : Type} (ops : RandomOps R) (t : TupleSpace V S J)
    (s : Int) (st : TState R S) :
    (∀ subs r2,
      ops.choiceNoRep npIntMax t.spaces.length (ops.reseed s).1 = some (subs, r2) →
        (seedT ops t (SeedSpec.intSeed s) st).1 =
          Except.ok ((ops.reseed s).2 ::
            (t.spaces.zip (subs.zip st.childStates)).map
              fun p => (p.1.seedFn (some p.2.1) p.2.2).1.headD 0) ∧
        (seedT ops t (SeedSpec.intSeed s) st).2.rng = r2) ∧
    (ops.choiceNoRep npIntMax t.spaces.length (ops.reseed s).1 = none →
        (seedT ops t (SeedSpec.intSeed s) st).1 =
          Except.ok ((ops.reseed s).2 ::
            (t.spaces.zip ((ops.choiceRep npIntMax t.spaces.length (ops.reseed s).1).1.zip
              st.childStates)).map fun p => (p.1.seedFn (some p.2.1) p.2.2).1.headD 0) ∧
        (seedT ops t (SeedSpec.intSeed s) st).2.rng =
          (ops.choiceRep npIntMax t.spaces.length (ops.reseed s).1).2) := by
  constructor
  · intro subs r2 hch
    have hT : seedT ops t (SeedSpec.intSeed s) st =
        (Except.ok ((ops.reseed s).2 ::
          (seedChildrenFirst t.spaces subs st.childStates).1),
         ⟨r2, (seedChildrenFirst t.spaces subs st.childStates).2⟩) := by
      simp only [seedT, hch]
    rw [hT]
    exact ⟨congrArg Except.ok (congrArg _ (seedChildrenFirst_fst _ _ _)), rfl⟩
  · intro hch
    have hT : seedT ops t (SeedSpec.intSeed s) st =
        (Except.ok ((ops.reseed s).2 ::
          (seedChildrenFirst t.spaces
            (ops.choiceRep npIntMax t.spaces.length (ops.reseed s).1).1 st.childStates).1),
         ⟨(ops.choiceRep npIntMax t.spaces.length (ops.reseed s).1).2,
          (seedChildrenFirst t.spaces
            (ops.choiceRep npIntMax t.spaces.length (ops.reseed s).1).1 st.childStates).2⟩) := by
      simp only [seedT, hch]
    rw [hT]
    exact ⟨congrArg Except.ok (congrArg _ (seedChildrenFirst_fst _ _ _)), rfl⟩

/-- Witness for C1 on a concrete two-child composite, in the branch
where the draw without replacement succeeds. -/
theorem tuple_seed_int_spec_witness :
    (seedT demoOps demoT2 (SeedSpec.intSeed 3) demoSt2).1 =
      Except.ok ((demoOps.reseed 3).2 ::
        (demoT2.spaces.zip (([103, 104] : List Int).zip demoSt2.childStates)).map
          fun p => (p.1.seedFn (some p.2.1) p.2.2).1.headD 0) ∧
    (seedT demoOps demoT2 (SeedSpec.intSeed 3) demoSt2).2.rng = 104 :=
  (tuple_seed_int_spec demoOps demoT2 3 demoSt2).1 [103, 104] 104 rfl

/-- When every child seeds itself from the given integer alone,
ignoring its previous state, the int-branch loop does not depend on the
previous child states as long as the sub-seed list covers every
child. -/
theorem seedChildrenFirst_stateIndep {V S J : Type} :
    ∀ (sps : List (Child V S J)) (sds : List Int) (sts1 sts2 : List S),
      (∀ sp ∈ sps, ∀ k a b, sp.seedFn (some k) a = sp.seedFn (some k) b) →
      sts1.length = sps.length → sts2.length = sps.length →
      sps.length ≤ sds.length →
      seedChildrenFirst sps sds sts1 = seedChildrenFirst sps sds sts2
  | [], _, sts1, sts2, _, h1, h2, _ => by
      cases sts1 with
      | nil =>
          cases sts2 with
          | nil => rfl
          | cons a b => simp at h2
      | cons a b => simp at h1
  | sp :: sps, [], _, _, _, _, _, hle => by simp at hle
  | sp :: sps, sd :: sds, sts1, sts2, hseed, h1, h2, hle => by
      cases sts1 with
      | nil => simp at h1
      | cons a as =>
          cases sts2 with
          | nil => simp at h2
          | cons b bs =>
              have ihs := seedChildrenFirst_stateIndep sps sds as bs
                (fun q hm k x y => hseed q (List.mem_cons_of_mem _ hm) k x y)
                (by simpa using h1) (by simpa using h2) (by simpa using hle)
              simp only [seedChildrenFirst, ihs,
                hseed sp (List.mem_cons_self _ _) sd a b]

/-- C6: seeding two composites over the same child sequence with the
same single integer and then sampling once produces the same seed list
and the same sample tuple, whatever states the two composites started
from, provided each child seeds itself from the given integer alone and
the generator returns one sub-seed per child. -/
theorem tuple_seed_sample_determinism {V S J R : Type} (ops : RandomOps R)
    (t : TupleSpace V S J) (s : Int) (st1 st2 : TState R S)
    (h1 : st1.childStates.length = t.spaces.length)
    (h2 : st2.childStates.length = t.spaces.length)
    (hseed : ∀ sp ∈ t.spaces, ∀ k a b, sp.seedFn (some k) a = sp.seedFn (some k) b)
    (hlenNo : ∀ bound n r subs r2,
      ops.choiceNoRep bound n r = some (subs, r2) → subs.length = n)
    (hlenRep : ∀ bound n r, (ops.choiceRep bound n r).1.length = n) :
    (seedT ops t (SeedSpec.intSeed s) st1).1 = (seedT ops t (SeedSpec.intSeed s) st2).1 ∧
    (sampleT t (seedT ops t (SeedSpec.intSeed s) st1).2).1 =
      (sampleT t (seedT ops t (SeedSpec.intSeed s) st2).2).1 := by
  have hfull : seedT ops t (SeedSpec.intSeed s) st1 = seedT ops t (SeedSpec.intSeed s) st2 := by
    simp only [seedT]
    cases hch : ops.choiceNoRep npIntMax t.spaces.length (ops.reseed s).1 with
    | some p =>
        have hl : p.1.length = t.spaces.length := by
          refine hlenNo npIntMax t.spaces.length (ops.reseed s).1 p.1 p.2 ?_
          rw [hch]
        rw [seedChildrenFirst_stateIndep t.spaces p.1 st1.childStates st2.childStates
          hseed h1 h2 (le_of_eq hl.symm)]
    | none =>
        have hl := hlenRep npIntMax t.spaces.length (ops.reseed s).1
        rw [seedChildrenFirst_stateIndep t.spaces _ st1.childStates st2.childStates
          hseed h1 h2 (le_of_eq hl.symm)]
  exact ⟨congrArg (fun z => z.1) hfull, congrArg (fun z => (sampleT t z.2).1) hfull⟩

/-- Witness for C6 on a concrete two-child composite started from two
different states. -/
theorem tuple_seed_sample_determinism_witness :
    (seedT demoOps demoT2 (SeedSpec.intSeed 5) demoSt2).1 =
      (seedT demoOps demoT2 (SeedSpec.intSeed 5) demoSt2').1 ∧
    (sampleT demoT2 (seedT demoOps demoT2 (SeedSpec.intSeed 5) demoSt2).2).1 =
      (sampleT demoT2 (seedT demoOps demoT2 (SeedSpec.intSeed 5) demoSt2').2).1 :=
  tuple_seed_sample_determinism demoOps demoT2 5 demoSt2 demoSt2' (by decide) (by decide)
    (by intro sp hm k a b; fin_cases hm <;> rfl)
    (by
      intro bound n r subs r2 hch
      have h0 : demoOps.choiceNoRep bound n r =
          some (((List.range n).map fun i => r + Int.ofNat i), r + 1) := rfl
      rw [h0] at hch
      injection hch with h3
      injection h3 with h4 h5
      rw [← h4, List.length_map, List.length_range])
    (by
      intro bound n r
      show ((List.range n).map fun _ => r).length = n
      rw [List.length_map, List.length_range])

/-- Folding min of lengths never exceeds the initial value. -/
theorem foldl_min_le_init {α : Type} :
    ∀ (cs : List (List α)) (a : Nat), cs.foldl (fun m l => min m l.length) a ≤ a
  | [], a => le_refl a
  | c :: cs, a =>
      le_trans (foldl_min_le_init cs (min a c.length)) (Nat.min_le_left _ _)

/-- Folding min of lengths is below the length of every column. -/
theorem foldl_min_le_mem {α : Type} :
    ∀ (cs : List (List α)) (a : Nat) (c : List α), c ∈ cs →
      cs.foldl (fun m l => min m l.length) a ≤ c.length
  | c0 :: cs, a, c, hm => by
      rcases List.mem_cons.mp hm with h0 | hm2
      · subst h0
        exact le_trans (foldl_min_le_init cs (min a c.length)) (Nat.min_le_right _ _)
      · exact foldl_min_le_mem cs (min a c0.length) c hm2

/-- Folding min of lengths yields the initial value or the length of
one of the columns. -/
theorem foldl_min_attained {α : Type} :
    ∀ (cs : List (List α)) (a : Nat),
      cs.foldl (fun m l => min m l.length) a = a ∨
        ∃ c ∈ cs, cs.foldl (fun m l => min m l.length) a = c.length
  | [], a => Or.inl rfl
  | c0 :: cs, a => by
      have hstep : (c0 :: cs).foldl (fun m l => min m l.length) a =
          cs.foldl (fun m l => min m l.length) (min a c0.length) := rfl
      rcases foldl_min_attained cs (min a c0.length) with h | ⟨c, hm, hc⟩
      · rcases Nat.le_total a c0.length with hle | hle
        · left
          rw [hstep, h, Nat.min_eq_left hle]
        · right
          exact ⟨c0, List.mem_cons_self _ _, by rw [hstep, h, Nat.min_eq_right hle]⟩
      · exact Or.inr ⟨c, List.mem_cons_of_mem _ hm, by rw [hstep, hc]⟩

/-- Folding min of lengths from a value all columns share gives that
value back. -/
theorem foldl_min_const {α : Type} :
    ∀ (cs : List (List α)) (m : Nat), (∀ c ∈ cs, c.length = m) →
      cs.foldl (fun m2 l => min m2 l.length) m = m
  | [], _, _ => rfl
  | c0 :: cs, m, h => by
      show cs.foldl (fun m2 l => min m2 l.length) (min m c0.length) = m
      rw [h c0 (List.mem_cons_self _ _), Nat.min_self]
      exact foldl_min_const cs m fun c hm => h c (List.mem_cons_of_mem _ hm)

/-- The shortest-column bound is below the length of every column. -/
theorem minColLen_le {α : Type} (cs : List (List α)) (c : List α) (hm : c ∈ cs) :
    minColLen cs ≤ c.length := by
  cases cs with
  | nil => cases hm
  | cons c0 cs =>
      show cs.foldl (fun m l => min m l.length) c0.length ≤ c.length
      rcases List.mem_cons.mp hm with h0 | hm2
      · subst h0
        exact foldl_min_le_init cs c.length
      · exact foldl_min_le_mem cs c0.length c hm2

/-- The shortest-column bound is attained by some column. -/
theorem minColLen_attained {α : Type} (cs : List (List α)) (hne : cs ≠ []) :
    ∃ c ∈ cs, c.length = minColLen cs := by
  cases cs with
  | nil => cases hne rfl
  | cons c0 cs =>
      show ∃ c ∈ c0 :: cs, c.length = cs.foldl (fun m l => min m l.length) c0.length
      rcases foldl_min_attained cs c0.length with h | ⟨c, hm, hc⟩
      · exact ⟨c0, List.mem_cons_self _ _, h.symm⟩
      · exact ⟨c, List.mem_cons_of_mem _ hm, hc.symm⟩

/-- When every column has length `m`, the shortest-column bound is
`m`. -/
theorem minColLen_const {α : Type} (cs : List (List α)) (m : Nat)
    (h : ∀ c ∈ cs, c.length = m) (hne : cs ≠ []) : minColLen cs = m := by
  cases cs with
  | nil => cases hne rfl
  | cons c0 cs =>
      show cs.foldl (fun m2 l => min m2 l.length) c0.length = m
      rw [h c0 (List.mem_cons_self _ _)]
      exact foldl_min_const cs m fun c hm => h c (List.mem_cons_of_mem _ hm)

/-- The truncating transpose has as many rows as the shortest
column. -/
theorem zipStar_length {α : Type} [Inhabited α] (cs : List (List α)) :
    (zipStar cs).length = minColLen cs := by
  cases cs with
  | nil => rfl
  | cons c0 cs =>
      show ((List.range (minColLen (c0 :: cs))).map _).length = _
      rw [List.length_map, List.length_range]

/-- Row `k` of the truncating transpose reads entry `k` of every
column, in column order. -/
theorem zipStar_getD {α : Type} [Inhabited α] (cs : List (List α)) (k : Nat)
    (hk : k < minColLen cs) (hne : cs ≠ []) :
    (zipStar cs).getD k [] = cs.map fun c => c.getD k default := by
  cases cs with
  | nil => cases hne rfl
  | cons c0 cs =>
      show ((List.range (minColLen (c0 :: cs))).map
        fun k2 => (c0 :: cs).map fun c => c.getD k2 default).getD k [] = _
      have hlt : k < ((List.range (minColLen (c0 :: cs))).map
          fun k2 => (c0 :: cs).map fun c => c.getD k2 default).length := by
        rw [List.length_map, List.length_range]
        exact hk
      rw [List.getD_eq_getElem _ _ hlt, List.getElem_map, List.getElem_range]

/-- Reading with a default at an in-range index is reading the
element. -/
theorem getD_get {α : Type} (l : List α) (d : α) (n : Nat) (hn : n < l.length) :
    l.getD n d = l.get ⟨n, hn⟩ :=
  List.getD_eq_getElem l d hn

/-- The truncating transpose of uniform columns that each read one
coordinate of a batch of uniform rows recovers the batch. -/
theorem zipStar_of_uniform {α : Type} [Inhabited α]
    (batch : List (List α)) (n : Nat) (hn : 0 < n)
    (hbatch : ∀ smp ∈ batch, smp.length = n)
    (cols : List (List α))
    (hcolsLen : cols.length = n)
    (hcolsGet : ∀ i, i < cols.length →
      cols.getD i [] = batch.map fun smp => smp.getD i default) :
    zipStar cols = batch := by
  have hne : cols ≠ [] := by
    intro h0
    rw [h0] at hcolsLen
    simp only [List.length_nil] at hcolsLen
    omega
  have hallLen : ∀ c ∈ cols, c.length = batch.length := by
    intro c hm
    obtain ⟨i, hget⟩ := List.mem_iff_get.mp hm
    have h1 : cols.getD i.1 [] = c := by rw [getD_get _ _ _ i.2, hget]
    rw [← h1, hcolsGet i.1 i.2, List.length_map]
  have hmin : minColLen cols = batch.length :=
    minColLen_const cols batch.length hallLen hne
  apply List.ext_get
  · rw [zipStar_length, hmin]
  · intro k h1 h2
    have hkmin : k < minColLen cols := by
      rw [hmin]
      exact h2
    have hrow : (zipStar cols).get ⟨k, h1⟩ = cols.map fun c => c.getD k default := by
      rw [← getD_get (zipStar cols) [] k h1]
      exact zipStar_getD cols k hkmin hne
    rw [hrow]
    have hbk : (batch.get ⟨k, h2⟩).length = n := hbatch _ (List.get_mem batch k h2)
    apply List.ext_get
    · rw [List.length_map, hcolsLen, hbk]
    · intro i hi1 hi2
      have hic : i < cols.length := by
        rw [List.length_map] at hi1
        exact hi1
      have hin : i < n := by
        rw [← hcolsLen]
        exact hic
      have hl : (cols.map fun c => c.getD k default).get ⟨i, hi1⟩ =
          (cols.getD i []).getD k default := by
        rw [← getD_get (cols.map fun c => c.getD k default) default i hi1,
          List.getD_eq_getElem _ _ hi1, List.getElem_map,
          ← List.getD_eq_getElem cols [] hic]
      rw [hl, hcolsGet i hic]
      have hkb : k < (batch.map fun smp => smp.getD i default).length := by
        rw [List.length_map]
        exact h2
      rw [List.getD_eq_getElem _ _ hkb, List.getElem_map,
        ← getD_get (batch.get ⟨k, h2⟩) default i hi2]
      rfl

/-- C3 counterexample: with zero children, `to_jsonable` of a nonempty
batch of empty samples is the empty column list, and `from_jsonable` of
that is the empty batch, so the round trip loses the batch. -/
theorem tuple_json_roundtrip_zero_children_cex :
    fromJsonT demoT0 (toJsonT demoT0 [[], []]) = ([] : List (List Int)) ∧
    ([] : List (List Int)) ≠ [[], []] :=
  ⟨rfl, by decide⟩

/-- C3 as amended: for a composite with at least one child, decoding
the encoding of any batch of full-arity samples recovers the batch,
provided each child decoding inverts its encoding; with zero children
the round trip instead returns the empty batch. -/
theorem tuple_json_roundtrip {V S J : Type} [Inhabited V] [Inhabited J]
    (t : TupleSpace V S J) (batch : List (List V))
    (hn : 0 < t.spaces.length)
    (hbatch : ∀ smp ∈ batch, smp.length = t.spaces.length)
    (hinv : ∀ sp ∈ t.spaces, ∀ l, sp.fromJson (sp.toJson l) = l) :
    fromJsonT t (toJsonT t batch) = batch := by
  show zipStar (t.spaces.mapIdx fun i sp =>
    sp.fromJson ((toJsonT t batch).getD i default)) = batch
  apply zipStar_of_uniform batch t.spaces.length hn hbatch
  · rw [List.length_mapIdx]
  · intro i hi
    have hiS : i < t.spaces.length := by rwa [List.length_mapIdx] at hi
    rw [getD_get _ [] i hi, List.get_mapIdx _ _ i hiS]
    have hilen : i < (toJsonT t batch).length := by
      show i < (t.spaces.mapIdx fun i2 sp =>
        sp.toJson (batch.map fun smp => smp.getD i2 default)).length
      rw [List.length_mapIdx]
      exact hiS
    have htj : (toJsonT t batch).getD i default =
        (t.spaces.get ⟨i, hiS⟩).toJson (batch.map fun smp => smp.getD i default) := by
      rw [getD_get _ default i hilen]
      exact List.get_mapIdx t.spaces _ i hiS
    rw [htj, hinv _ (List.get_mem t.spaces i hiS) _]

/-- Witness for C3 as amended, on a concrete two-child composite and a
three-sample batch. -/
theorem tuple_json_roundtrip_witness :
    fromJsonT demoT2 (toJsonT demoT2 [[1, 2], [3, 4], [5, 6]]) =
      [[1, 2], [3, 4], [5, 6]] :=
  tuple_json_roundtrip demoT2 [[1, 2], [3, 4], [5, 6]] (by decide) (by decide)
    (by intro sp hm l; fin_cases hm <;> rfl)

/-- C5: `from_jsonable` decodes one column per child and transposes;
the output batch length is the shortest decoded column length (a bound
below every column length and attained by one of them), and row `k` of
the output is the tuple of the entries `k` of the decoded columns, in
child order. -/
theorem tuple_from_jsonable_transpose {V S J : Type} [Inhabited V] [Inhabited J]
    (t : TupleSpace V S J) (input : List J) (hn : 0 < t.spaces.length) :
    (fromJsonT t input).length =
      minColLen (t.spaces.mapIdx fun i sp => sp.fromJson (input.getD i default)) ∧
    (∀ c ∈ (t.spaces.mapIdx fun i sp => sp.fromJson (input.getD i default)),
      minColLen (t.spaces.mapIdx fun i sp => sp.fromJson (input.getD i default)) ≤
        c.length) ∧
    (∃ c ∈ (t.spaces.mapIdx fun i sp => sp.fromJson (input.getD i default)),
      c.length =
        minColLen (t.spaces.mapIdx fun i sp => sp.fromJson (input.getD i default))) ∧
    ∀ k, k < minColLen (t.spaces.mapIdx fun i sp => sp.fromJson (input.getD i default)) →
      (fromJsonT t input).getD k [] =
        (t.spaces.mapIdx fun i sp => sp.fromJson (input.getD i default)).map
          fun c => c.getD k default := by
  have hne : (t.spaces.mapIdx fun i sp => sp.fromJson (input.getD i default)) ≠ [] := by
    intro h0
    have hh := congrArg List.length h0
    rw [List.length_mapIdx] at hh
    simp only [List.length_nil] at hh
    omega
  exact ⟨zipStar_length _, fun c hm => minColLen_le _ c hm,
    minColLen_attained _ hne, fun k hk => zipStar_getD _ k hk hne⟩

/-- Witness for C5 on a concrete two-child composite with decoded
columns of lengths three and two. -/
theorem tuple_from_jsonable_transpose_witness :
    (fromJsonT demoT2 [[1, 2, 3], [4, 5]]).length =
      minColLen (demoT2.spaces.mapIdx fun i sp =>
        sp.fromJson (([[1, 2, 3], [4, 5]] : List (List Int)).getD i default)) ∧
    (fromJsonT demoT2 [[1, 2, 3], [4, 5]]).getD 0 [] =
      (demoT2.spaces.mapIdx fun i sp =>
        sp.fromJson (([[1, 2, 3], [4, 5]] : List (List Int)).getD i default)).map
        fun c => c.getD 0 default :=
  ⟨(tuple_from_jsonable_transpose demoT2 [[1, 2, 3], [4, 5]] (by decide)).1,
   (tuple_from_jsonable_transpose demoT2 [[1, 2, 3], [4, 5]] (by decide)).2.2.2 0
     (by decide)⟩
